import Mathlib

/-!
Shallow embedding of the TikTok bot source (`src/main.go`) and proofs about
the specification claims.

Modelling conventions:
* Machine time (`time.Time`, `time.Duration`) is modelled as `Nat`
  nanoseconds since the epoch; `time.Now().After(x)` is the strict
  comparison `x < now`.
* The Go `map[string]cacheItem` is modelled as an association list with
  Go-map semantics (insert overwrites, delete removes).
* Network and process effects are parameters (oracles): a fetch function
  `String → Option Bytes` stands for `downloadToMem` (a `nil` buffer is
  `none`), and the external `ffmpeg` process is a parameter of `makeVideo`.
* Goroutine scheduling is modelled explicitly where a claim needs it: the
  fetch fan-out as a fold over an arbitrary completion order, and the two
  pipe-writer goroutines as event traces closed under interleaving.
-/

/-- Raw byte buffers (`[]byte`); `none` models a `nil` slice. -/
abbrev Bytes := List Nat

/-! ## Token cache (`linkCache`, main.go lines 27-66) -/

/-- Go constant `cacheTTL = 10 * time.Minute`, in nanoseconds. -/
def cacheTTL : Nat := 600000000000

/-- Go struct `cacheItem` (main.go lines 32-35). -/
structure cacheItem where
  url : String
  expires : Nat
deriving DecidableEq, Repr

/-- The `map[string]cacheItem` inside `linkCache`, as an association list. -/
abbrev CacheMap := List (String × cacheItem)

/-- Go map lookup `c.items[token]`. -/
def mapGet : CacheMap → String → Option cacheItem
  | [], _ => none
  | (k2, v) :: rest, k => if k2 = k then some v else mapGet rest k

/-- Go map deletion `delete(c.items, token)`. -/
def mapDelete : CacheMap → String → CacheMap
  | [], _ => []
  | (k2, v) :: rest, k =>
      if k2 = k then mapDelete rest k else (k2, v) :: mapDelete rest k

/-- Go map insertion `c.items[token] = item` (overwrites any old binding). -/
def mapInsert (m : CacheMap) (k : String) (v : cacheItem) : CacheMap :=
  (k, v) :: mapDelete m k

/-- Go method `(c *linkCache).set` (main.go lines 46-52).  The generated
token and the current time are parameters of the model; the body stores the
url under the token with expiry `now + cacheTTL` and returns the token. -/
def linkCache.set (m : CacheMap) (token url : String) (now : Nat) : CacheMap :=
  mapInsert m token { url := url, expires := now + cacheTTL }

/-- Go method `(c *linkCache).get` (main.go lines 54-66): look the token up;
a missing entry yields `("", false)`; an entry with `now` strictly after its
expiry is deleted and yields `("", false)`; otherwise the url is returned.
The whole body runs under the mutex, so it is one atomic state transition:
the result pairs the returned `(string, bool)` with the updated map. -/
def linkCache.get (m : CacheMap) (token : String) (now : Nat) :
    (String × Bool) × CacheMap :=
  match mapGet m token with
  | none => (("", false), m)
  | some item =>
      if item.expires < now then (("", false), mapDelete m token)
      else ((item.url, true), m)

/-! ## Token generation (`randomToken`, main.go lines 68-74) -/

/-- Result of `rand.Read` on the `size`-byte buffer: either it fills the
buffer with the given bytes, or it fails. -/
inductive RandRead where
  | ok (bytes : List Nat)
  | err
deriving DecidableEq

/-- Alphabet of `base64.RawURLEncoding`. -/
def b64urlAlphabet : List Char :=
  "ABCDEFGHIJKLMNOPQRSTUVWXYZabcdefghijklmnopqrstuvwxyz0123456789-_".data

/-- Character of the URL-safe base64 alphabet at index `n`. -/
def b64Char (n : Nat) : Char := b64urlAlphabet.getD n 'A'

/-- Go `base64.RawURLEncoding.EncodeToString`: URL-safe base64 without
padding, 3 bytes to 4 characters, trailing 1 byte to 2 characters and
trailing 2 bytes to 3 characters. -/
def base64RawURL : List Nat → List Char
  | [] => []
  | [b0] => [b64Char (b0 / 4), b64Char (b0 % 4 * 16)]
  | [b0, b1] =>
      [b64Char (b0 / 4), b64Char (b0 % 4 * 16 + b1 / 16), b64Char (b1 % 16 * 4)]
  | b0 :: b1 :: b2 :: rest =>
      b64Char (b0 / 4) :: b64Char (b0 % 4 * 16 + b1 / 16) ::
        b64Char (b1 % 16 * 4 + b2 / 64) :: b64Char (b2 % 64) :: base64RawURL rest

/-- Go function `randomToken` (main.go lines 68-74).  The outcome of
`rand.Read` and the current `time.Now().UnixNano()` are parameters.  The
second component of the result is the list of security/observability events
the function emits: the Go body contains no logging or flagging call on any
path (the file does not even import a logging package), so it is always
empty. -/
def randomToken (size : Nat) (r : RandRead) (nowUnixNano : Nat) :
    String × List String :=
  match r with
  | RandRead.err => (toString nowUnixNano, [])
  | RandRead.ok bytes => (String.mk (base64RawURL bytes), [])

/-! ## Start-payload handling (`handleStartPayload`, main.go lines 197-223) -/

/-- Go `unicode.IsSpace` restricted to the Latin-1 range, which is what
`strings.Fields` uses to split; the messages involved here are ASCII. -/
def isSpace (c : Char) : Bool :=
  c == ' ' || c == '\t' || c == '\n' || c == '\x0b' || c == '\x0c' ||
    c == '\r' || c == '\x85' || c == '\xa0'

/-- Worker for `strings.Fields`: `acc` is the current word, reversed. -/
def fieldsCore : List Char → List Char → List (List Char)
  | acc, [] => if acc = [] then [] else [acc.reverse]
  | acc, c :: rest =>
      if isSpace c then
        if acc = [] then fieldsCore [] rest
        else acc.reverse :: fieldsCore [] rest
      else fieldsCore (c :: acc) rest

/-- Go `strings.Fields`: split around runs of whitespace. -/
def fields (s : String) : List String :=
  (fieldsCore [] s.data).map String.mk

/-- Go `strings.TrimSpace` on the Latin-1 whitespace set. -/
def trimSpace (s : String) : String :=
  String.mk (((s.data.dropWhile isSpace).reverse.dropWhile isSpace).reverse)

/-- Go `strings.HasPrefix` on character lists. -/
def hasPref : List Char → List Char → Bool
  | _, [] => true
  | [], _ :: _ => false
  | c :: cs, p :: ps => c == p && hasPref cs ps

/-- Go `strings.TrimPrefix` on character lists: drop `pre` if it is a
prefix of `s`, otherwise return `s` unchanged. -/
def trimPref (s pre : List Char) : List Char :=
  if hasPref s pre then s.drop pre.length else s

/-- Go constant `startTokenPref = "tt_"`. -/
def startTokenPref : String := "tt_"

/-- Observable outcome of `handleStartPayload`: either the message is not a
start-callback and the function returns `false` (falling through to the
ordinary link handling), or it sends the user-visible expiry message, or it
resolves the cached link (handing it to `sendTikTok`); the latter two
return `true`. -/
inductive StartAction where
  | notHandled
  | expiredMessage
  | sendLink (link : String)
deriving DecidableEq, Repr

/-- Go function `handleStartPayload` (main.go lines 197-223), with the
message text, the cache state and the current time as inputs; it pairs the
observable action with the cache state left behind by the embedded
`linkCache.get` call. -/
def handleStartPayload (text : String) (cache : CacheMap) (now : Nat) :
    StartAction × CacheMap :=
  match fields text with
  | [] => (StartAction.notHandled, cache)
  | p0 :: rest =>
      if p0 = "/start" then
        match rest with
        | [] => (StartAction.notHandled, cache)
        | p1 :: _ =>
            let payload := trimSpace p1
            if hasPref payload.data startTokenPref.data then
              let token := String.mk (trimPref payload.data startTokenPref.data)
              match linkCache.get cache token now with
              | ((link, true), c2) => (StartAction.sendLink link, c2)
              | ((_, false), c2) => (StartAction.expiredMessage, c2)
            else (StartAction.notHandled, cache)
      else (StartAction.notHandled, cache)

/-! ## Photo batching (`sendPhotoGroups`, main.go lines 246-271) -/

/-- Go constant `groupSize = 10` inside `sendPhotoGroups`. -/
def groupSize : Nat := 10

/-- One element of a media group: Go `models.InputMediaPhoto` restricted to
the fields the code sets (`Media`, `Caption`; an unset caption is the Go
zero value `""`). -/
structure mediaItem where
  media : String
  caption : String
deriving DecidableEq, Repr

/-- Inner loop of `sendPhotoGroups` (main.go lines 257-264): build the
media list for one chunk; the caption goes on the item with index 0 only
(and only when the caption is nonempty). -/
def buildGroupFrom (idx : Nat) (chunk : List String) (caption : String) :
    List mediaItem :=
  match chunk with
  | [] => []
  | u :: rest =>
      { media := u,
        caption := if idx = 0 ∧ caption ≠ "" then caption else "" } ::
        buildGroupFrom (idx + 1) rest caption

/-- Media list for one chunk, indices starting at 0 as in the Go `range`. -/
def buildGroup (chunk : List String) (caption : String) : List mediaItem :=
  buildGroupFrom 0 chunk caption

/-- Go function `sendPhotoGroups` (main.go lines 246-271): walk the url
list in steps of `groupSize`, building one media group per chunk; the
result is the list of media groups passed to `SendMediaGroup`, in order. -/
def sendPhotoGroups (imageURLs : List String) (caption : String) :
    List (List mediaItem) :=
  if h : imageURLs = [] then []
  else
    buildGroup (imageURLs.take groupSize) caption ::
      sendPhotoGroups (imageURLs.drop groupSize) caption
termination_by imageURLs.length
decreasing_by
  simp only [List.length_drop, groupSize]
  have : 0 < imageURLs.length := List.length_pos.mpr h
  omega

/-! ## Media fetch fan-out and compositor (`makeVideo`, main.go 287-361) -/

/-- One completion step of the fetch fan-out (main.go lines 303-308): the
goroutine for index `idx` stores the download result of `imageURLs[idx]`
into slot `idx` of the buffer set.  An out-of-range event is a no-op (no
goroutine exists for it). -/
def fetchStep (images : List String) (fetch : String → Option Bytes)
    (bufs : List (Option Bytes)) (idx : Nat) : List (Option Bytes) :=
  match images[idx]? with
  | none => bufs
  | some u => bufs.set idx (fetch u)

/-- The fetch fan-out up to the `wg.Wait()` barrier (main.go lines 292-309):
starting from the all-`none` buffer set `make([][]byte, len(imageURLs))`,
the download goroutines complete in an arbitrary order `order`, each
writing its own slot. -/
def runFetches (images : List String) (fetch : String → Option Bytes)
    (order : List Nat) : List (Option Bytes) :=
  order.foldl (fetchStep images fetch) (List.replicate images.length none)

/-- The image-writer goroutine body (main.go lines 342-349): write the
buffers to the image pipe in index order, skipping `nil` buffers. -/
def writeImages (bufs : List (Option Bytes)) : Bytes :=
  bufs.foldl (fun acc b => match b with | none => acc | some bb => acc ++ bb) []

/-- Duration defaulting (main.go lines 288-290): a caller-supplied duration
of at most 0 is replaced by 10 seconds. -/
def effectiveDuration (duration : Int) : Int :=
  if duration ≤ 0 then 10 else duration

/-- Frame-rate computation (main.go line 318):
`float64(len(imageURLs)) / float64(duration)` after defaulting, as an exact
rational. -/
def frameRate (imageCount : Nat) (duration : Int) : ℚ :=
  (imageCount : ℚ) / ((effectiveDuration duration : Int) : ℚ)

/-- The data handed to the external `ffmpeg` process: the `-framerate`
argument, the byte stream written to the image pipe and the byte stream
written to the audio pipe. -/
structure EncoderCall where
  rate : ℚ
  imgStream : Bytes
  audStream : Bytes

/-- Go function `makeVideo` (main.go lines 287-361).  Oracles: `fetch`
models `downloadToMem` (per-url result, `none` for a failed download, the
post-barrier buffer set being order-independent by `runFetches` below);
`startRes` models `cmd.Start()`; `run` models the encoder consuming both
pipes, returning either stdout bytes or the pair of the exit error and the
captured stderr text.  The result pairs the function result with the
encoder invocation made (`none` when the process was never started). -/
def makeVideo (imageURLs : List String) (audioURL : String) (duration : Int)
    (fetch : String → Option Bytes) (startRes : Except String Unit)
    (run : EncoderCall → Except (String × String) Bytes) :
    Except String Bytes × Option EncoderCall :=
  let imgBufs := imageURLs.map fetch
  match fetch audioURL with
  | none => (Except.error "failed to download audio", none)
  | some audBuf =>
      let call : EncoderCall :=
        { rate := frameRate imageURLs.length duration
          imgStream := writeImages imgBufs
          audStream := audBuf }
      match startRes with
      | Except.error e => (Except.error e, none)
      | Except.ok _ =>
          match run call with
          | Except.error e2 =>
              (Except.error ("ffmpeg: " ++ e2.1 ++ ", stderr: " ++ e2.2),
                some call)
          | Except.ok out => (Except.ok out, some call)

/-! ## Compositor event traces (main.go lines 338-354)

The start of the encoder process and the two writer goroutines are modelled
as an event trace: `cmd.Start()` happens first (the goroutines are only
created after it returns), and then the two writer bodies execute
concurrently, i.e. the remaining trace is an arbitrary interleaving of the
two writers' own event sequences.  Each writer's sequence ends with the
close of its pipe's write end, which the `defer` performs on every exit
path. -/

/-- Events of the compositor phase. -/
inductive Ev where
  | startEncoder
  | writeImg (b : Bytes)
  | closeImg
  | writeAud (b : Bytes)
  | closeAud
deriving DecidableEq, Repr

/-- Event sequence of the image-writer goroutine (main.go lines 342-349):
one write per non-`nil` buffer, in index order, then the deferred close. -/
def imgWriterEvents (bufs : List (Option Bytes)) : List Ev :=
  (bufs.filterMap id).map Ev.writeImg ++ [Ev.closeImg]

/-- Event sequence of the audio-writer goroutine (main.go lines 351-354). -/
def audWriterEvents (audBuf : Bytes) : List Ev :=
  [Ev.writeAud audBuf, Ev.closeAud]

/-- Interleavings of two event sequences. -/
inductive Interleave : List Ev → List Ev → List Ev → Prop where
  | nil : Interleave [] [] []
  | left {x xs ys zs} : Interleave xs ys zs → Interleave (x :: xs) ys (x :: zs)
  | right {y xs ys zs} : Interleave xs ys zs → Interleave xs (y :: ys) (y :: zs)

/-- Events belonging to the image writer. -/
def isImgEv : Ev → Bool
  | Ev.writeImg _ => true
  | Ev.closeImg => true
  | _ => false

/-- Events belonging to the audio writer. -/
def isAudEv : Ev → Bool
  | Ev.writeAud _ => true
  | Ev.closeAud => true
  | _ => false

/-- Possible executions of the compositor phase after a successful
`cmd.Start()` (main.go lines 338-354): the start event, followed by any
interleaving of the two writer goroutines' event sequences. -/
def compositorTrace (bufs : List (Option Bytes)) (audBuf : Bytes)
    (tr : List Ev) : Prop :=
  ∃ t, Interleave (imgWriterEvents bufs) (audWriterEvents audBuf) t ∧
    tr = Ev.startEncoder :: t

/-! ## Association-list lemmas -/

theorem mapGet_mapDelete_self (m : CacheMap) (k : String) :
    mapGet (mapDelete m k) k = none := by
  induction m with
  | nil => rfl
  | cons hd tl ih =>
      obtain ⟨k2, v⟩ := hd
      by_cases hk : k2 = k
      · simp [mapDelete, hk, ih]
      · simp [mapDelete, mapGet, hk, ih]

theorem mapGet_mapDelete_ne (m : CacheMap) (k k2 : String) (h : k2 ≠ k) :
    mapGet (mapDelete m k) k2 = mapGet m k2 := by
  induction m with
  | nil => rfl
  | cons hd tl ih =>
      obtain ⟨k3, v⟩ := hd
      by_cases hk : k3 = k
      · have hk2 : ¬ k3 = k2 := fun hh => h (hh ▸ hk)
        simp [mapDelete, mapGet, hk, hk2, ih, Ne.symm h]
      · by_cases hk2 : k3 = k2 <;>
          simp [mapDelete, mapGet, hk, hk2, ih, h, Ne.symm h]

theorem mapGet_mapInsert_self (m : CacheMap) (k : String) (v : cacheItem) :
    mapGet (mapInsert m k v) k = some v := by
  simp [mapInsert, mapGet]

/-! ## Claims about the token cache -/

/-- C1 counterexample: the claim demands `not-found` at any time greater
than or equal to `t0 + TTL`, but `linkCache.get` uses the strict comparison
`time.Now().After(item.expires)`, so at exactly `t0 + cacheTTL` the entry
is still returned as found.  Concrete input: empty cache, `put` of resource
`"res"` under token `"tok"` at time 0, `get` at time `0 + cacheTTL`. -/
theorem C1_counterexample :
    (linkCache.get (linkCache.set [] "tok" "res" 0) "tok" (0 + cacheTTL)).1 =
      ("res", true) := by
  simp [linkCache.get, linkCache.set, mapGet_mapInsert_self]

/-- C1 (amended): for every token T inserted by `put` at time `t0`
(TTL 10 minutes), a `get(T)` performed at any time strictly greater than
`t0 + TTL` returns not-found (at exactly `t0 + TTL` the entry is still
returned, because the expiry test is strict), and every subsequent `get(T)`
also returns not-found while leaving the store unchanged: eviction is
permanent and is not re-extended by access. -/
theorem C1_expiry_permanent (m : CacheMap) (tok url : String)
    (t0 t t' : Nat) (h : t0 + cacheTTL < t) :
    (linkCache.get (linkCache.set m tok url t0) tok t).1 = ("", false) ∧
    (linkCache.get (linkCache.get (linkCache.set m tok url t0) tok t).2
        tok t').1 = ("", false) ∧
    (linkCache.get (linkCache.get (linkCache.set m tok url t0) tok t).2
        tok t').2 =
      (linkCache.get (linkCache.set m tok url t0) tok t).2 := by
  have h1 : linkCache.get (linkCache.set m tok url t0) tok t =
      (("", false), mapDelete (linkCache.set m tok url t0) tok) := by
    simp [linkCache.get, mapGet_mapInsert_self, linkCache.set, h]
  have h2 : mapGet (mapDelete (linkCache.set m tok url t0) tok) tok = none :=
    mapGet_mapDelete_self _ _
  refine ⟨by simp [h1], ?_, ?_⟩ <;> rw [h1] <;> simp [linkCache.get, h2]

/-- C1 witness: instantiation of `C1_expiry_permanent` at the empty cache,
token `"a"`, resource `"r"`, insertion time 0, first lookup at
`cacheTTL + 1` and second lookup at time 5. -/
theorem C1_expiry_permanent_witness :
    (linkCache.get (linkCache.set [] "a" "r" 0) "a" (cacheTTL + 1)).1 =
      ("", false) ∧
    (linkCache.get (linkCache.get (linkCache.set [] "a" "r" 0) "a"
        (cacheTTL + 1)).2 "a" 5).1 = ("", false) ∧
    (linkCache.get (linkCache.get (linkCache.set [] "a" "r" 0) "a"
        (cacheTTL + 1)).2 "a" 5).2 =
      (linkCache.get (linkCache.set [] "a" "r" 0) "a" (cacheTTL + 1)).2 :=
  C1_expiry_permanent [] "a" "r" 0 (cacheTTL + 1) 5 (by omega)

/-- C2: for every resource string R, a `get` with the token stored by `put(R)`
at insertion time `t0`, performed at any time `t` before the TTL window
ends, returns `(R, found)`. -/
theorem C2_round_trip (m : CacheMap) (tok url : String) (t0 t : Nat)
    (h : t < t0 + cacheTTL) :
    (linkCache.get (linkCache.set m tok url t0) tok t).1 = (url, true) := by
  have hno : ¬ t0 + cacheTTL < t := by omega
  simp [linkCache.get, linkCache.set, mapGet_mapInsert_self, hno]

/-- C2 witness: instantiation of `C2_round_trip` with insertion at time 1
and lookup at time 0 (inside the TTL window). -/
theorem C2_round_trip_witness :
    (linkCache.get (linkCache.set [] "a" "r" 1) "a" 0).1 = ("r", true) :=
  C2_round_trip [] "a" "r" 1 0 (by omega)

/-- C3: frame conditions of `linkCache.get`.  If the token is absent, the
call returns not-found and leaves the store entirely unchanged; if the
entry is present and not expired, the call returns it found and leaves the
store entirely unchanged (no TTL extension, no other mutation); if the
entry is present and expired, the call returns not-found and, in the same
atomic transition, removes exactly that entry: the token maps to nothing
afterwards and every other key keeps its binding. -/
theorem C3_get_frame (m : CacheMap) (tok : String) (now : Nat) :
    (mapGet m tok = none → linkCache.get m tok now = (("", false), m)) ∧
    (∀ item, mapGet m tok = some item → ¬ item.expires < now →
        linkCache.get m tok now = ((item.url, true), m)) ∧
    (∀ item, mapGet m tok = some item → item.expires < now →
        (linkCache.get m tok now).1 = ("", false) ∧
        mapGet (linkCache.get m tok now).2 tok = none ∧
        (∀ k, k ≠ tok →
          mapGet (linkCache.get m tok now).2 k = mapGet m k)) := by
  refine ⟨fun hnone => by simp [linkCache.get, hnone], ?_, ?_⟩
  · intro item hsome hlive
    simp [linkCache.get, hsome, hlive]
  · intro item hsome hexp
    have hg : linkCache.get m tok now = (("", false), mapDelete m tok) := by
      simp [linkCache.get, hsome, hexp]
    rw [hg]
    exact ⟨rfl, mapGet_mapDelete_self m tok,
      fun k hk => mapGet_mapDelete_ne m tok k hk⟩

/-- C3 witness: instantiation of `C3_get_frame` on the one-entry cache
holding token `"a"` with expiry 5, looked up at time 10 (expired): the
lookup reports not-found, evicts the entry, and leaves the (absent) key
`"b"` unchanged. -/
theorem C3_get_frame_witness :
    (linkCache.get [("a", { url := "r", expires := 5 })] "a" 10).1 =
      ("", false) ∧
    mapGet (linkCache.get [("a", { url := "r", expires := 5 })] "a" 10).2
      "a" = none ∧
    mapGet (linkCache.get [("a", { url := "r", expires := 5 })] "a" 10).2
      "b" = mapGet [("a", { url := "r", expires := 5 })] "b" := by
  have h := (C3_get_frame [("a", { url := "r", expires := 5 })] "a" 10).2.2
    { url := "r", expires := 5 } (by decide) (by decide)
  exact ⟨h.1, h.2.1, h.2.2 "b" (by decide)⟩

/-! ## Claims about makeVideo -/

/-- C4: if the audio download fails (the audio buffer is `nil` after the
`wg.Wait()` barrier), `makeVideo` returns the whole-operation error
`"failed to download audio"`, never starts the external encoder process
(the invocation component is `none`), and returns no partial output —
regardless of the image urls, their download results, the duration, and
the process oracles. -/
theorem C4_audio_mandatory (imageURLs : List String) (audioURL : String)
    (duration : Int) (fetch : String → Option Bytes)
    (startRes : Except String Unit)
    (run : EncoderCall → Except (String × String) Bytes)
    (h : fetch audioURL = none) :
    makeVideo imageURLs audioURL duration fetch startRes run =
      (Except.error "failed to download audio", none) := by
  simp [makeVideo, h]

/-- C4 witness: a concrete run with two image urls that both download fine
but a failing audio url. -/
theorem C4_audio_mandatory_witness :
    makeVideo ["i1", "i2"] "aud" 10
        (fun u => if u = "aud" then none else some [1])
        (Except.ok ()) (fun _ => Except.ok [9]) =
      (Except.error "failed to download audio", none) :=
  C4_audio_mandatory ["i1", "i2"] "aud" 10
    (fun u => if u = "aud" then none else some [1])
    (Except.ok ()) (fun _ => Except.ok [9]) (by decide)

/-- C7: the encoder frame rate is the image count divided by the
caller-supplied target duration when that duration is positive, and the
image count divided by the default of 10 seconds when the caller supplies a
duration of at most 0; in particular, for 5 images and duration 10 the
frame rate is 0.5, as it is for 5 images and duration 0. -/
theorem C7_frame_rate :
    (∀ (n : Nat) (d : Int), 0 < d → frameRate n d = (n : ℚ) / (d : ℚ)) ∧
    (∀ (n : Nat) (d : Int), d ≤ 0 → frameRate n d = (n : ℚ) / 10) ∧
    frameRate 5 10 = 1 / 2 ∧ frameRate 5 0 = 1 / 2 := by
  refine ⟨?_, ?_, ?_, ?_⟩
  · intro n d hd
    have hne : ¬ d ≤ 0 := by omega
    simp [frameRate, effectiveDuration, hne]
  · intro n d hd
    simp [frameRate, effectiveDuration, hd]
  · norm_num [frameRate, effectiveDuration]
  · norm_num [frameRate, effectiveDuration]

/-- C7 witness: the positive-duration and defaulted branches applied to the
concrete inputs of the claim, both yielding one half. -/
theorem C7_frame_rate_witness :
    frameRate 5 10 = (5 : ℚ) / (10 : ℚ) ∧ frameRate 5 0 = (5 : ℚ) / 10 :=
  ⟨C7_frame_rate.1 5 10 (by norm_num), C7_frame_rate.2.1 5 0 (by norm_num)⟩

/-! ## Claims about randomToken -/

/-- C8 counterexample: the claim requires the timestamp fallback to be
flagged as a security-relevant/observability event, but at the concrete
input where `rand.Read` fails at UnixNano time 999, `randomToken` takes the
fallback (returning the decimal timestamp `"999"`) and emits no event at
all: the degraded path is silently accepted. -/
theorem C8_counterexample :
    (randomToken 12 RandRead.err 999).1 = "999" ∧
    (randomToken 12 RandRead.err 999).2 = [] := by
  constructor <;> rfl

/-- C8 (amended): token generation falls back to a timestamp-derived,
non-cryptographic token exactly when the cryptographically strong random
source fails, and the put operation still succeeds with the resulting
token; however the fallback is not flagged: the function emits no
security/observability event on any path, so the degraded token is
silently accepted as equivalent to a normal one. -/
theorem C8_silent_fallback (size : Nat) (r : RandRead) (now : Nat) :
    (randomToken size r now).2 = [] ∧
    (r = RandRead.err → (randomToken size r now).1 = toString now) ∧
    (∀ bytes, r = RandRead.ok bytes →
        (randomToken size r now).1 = String.mk (base64RawURL bytes)) ∧
    (∀ (m : CacheMap) (url : String) (t0 : Nat),
        mapGet (linkCache.set m (randomToken size r now).1 url t0)
            (randomToken size r now).1 =
          some { url := url, expires := t0 + cacheTTL }) := by
  refine ⟨?_, ?_, ?_, ?_⟩
  · cases r <;> rfl
  · intro hr; subst hr; rfl
  · intro bytes hr; subst hr; rfl
  · intro m url t0
    exact mapGet_mapInsert_self m (randomToken size r now).1 _

/-- C8 witness: instantiation of `C8_silent_fallback` on the failing random
source at time 999: no event is emitted, the token is the decimal
timestamp, and inserting a resource under it stores the entry. -/
theorem C8_silent_fallback_witness :
    (randomToken 12 RandRead.err 999).2 = [] ∧
    (randomToken 12 RandRead.err 999).1 = toString 999 ∧
    mapGet (linkCache.set [] (randomToken 12 RandRead.err 999).1 "u" 3)
        (randomToken 12 RandRead.err 999).1 =
      some { url := "u", expires := 3 + cacheTTL } := by
  have h := C8_silent_fallback 12 RandRead.err 999
  exact ⟨h.1, h.2.1 rfl, h.2.2.2 [] "u" 3⟩

/-! ## Order-independence of the fetch fan-out (C5) -/

theorem lt_length_of_getElem?_some {α : Type} {l : List α} {i : Nat} {a : α}
    (h : l[i]? = some a) : i < l.length := by
  by_contra hn
  rw [List.getElem?_eq_none (by omega)] at h
  exact Option.noConfusion h

theorem fetchStep_length (images : List String)
    (fetch : String → Option Bytes) (bufs : List (Option Bytes)) (idx : Nat) :
    (fetchStep images fetch bufs idx).length = bufs.length := by
  unfold fetchStep
  cases images[idx]? <;> simp

theorem foldl_fetchStep_length (images : List String)
    (fetch : String → Option Bytes) (order : List Nat) :
    ∀ bufs : List (Option Bytes),
      (order.foldl (fetchStep images fetch) bufs).length = bufs.length := by
  induction order with
  | nil => intro bufs; rfl
  | cons j rest ih =>
      intro bufs
      rw [List.foldl_cons, ih, fetchStep_length]

/-- Once a slot holds the download result for its own url, no later
completion event changes it: every event writes either a different slot or
the same value. -/
theorem fetchStep_stable (images : List String)
    (fetch : String → Option Bytes) (order : List Nat) :
    ∀ (bufs : List (Option Bytes)) (i : Nat) (u : String),
      images[i]? = some u → bufs[i]? = some (fetch u) →
      (order.foldl (fetchStep images fetch) bufs)[i]? = some (fetch u) := by
  induction order with
  | nil => intro bufs i u _ hb; simpa using hb
  | cons j rest ih =>
      intro bufs i u himg hb
      rw [List.foldl_cons]
      refine ih _ i u himg ?_
      unfold fetchStep
      cases hj : images[j]? with
      | none => simpa using hb
      | some w =>
          by_cases hij : j = i
          · subst hij
            have hw : w = u := by
              rw [himg] at hj
              exact (Option.some.inj hj).symm
            subst hw
            have hi : j < bufs.length := lt_length_of_getElem?_some hb
            simp [List.getElem?_set_eq hi]
          · simp [List.getElem?_set_ne hij, hb]

/-- Every index whose completion event occurs ends up holding the download
result of its own url. -/
theorem runFetches_slot (images : List String)
    (fetch : String → Option Bytes) :
    ∀ (order : List Nat) (bufs : List (Option Bytes)) (i : Nat) (u : String),
      i ∈ order → images[i]? = some u → bufs.length = images.length →
      (order.foldl (fetchStep images fetch) bufs)[i]? = some (fetch u) := by
  intro order
  induction order with
  | nil => intro bufs i u h; cases h
  | cons j rest ih =>
      intro bufs i u hmem himg hlen
      rw [List.foldl_cons]
      by_cases hij : j = i
      · subst hij
        refine fetchStep_stable images fetch rest _ j u himg ?_
        unfold fetchStep
        rw [himg]
        have hi : j < bufs.length := by
          have := lt_length_of_getElem?_some himg
          omega
        simp [List.getElem?_set_eq hi]
      · have hmem2 : i ∈ rest := by
          rcases List.mem_cons.mp hmem with h | h
          · exact absurd h.symm hij
          · exact h
        refine ih _ i u hmem2 himg ?_
        rw [fetchStep_length]
        exact hlen

/-- The fetch barrier result is order-independent: as long as every
download goroutine completes (its index occurs in the completion order),
the buffer set after `wg.Wait()` is exactly the per-index download map. -/
theorem runFetches_eq (images : List String)
    (fetch : String → Option Bytes) (order : List Nat)
    (hall : ∀ i, i < images.length → i ∈ order) :
    runFetches images fetch order = images.map fetch := by
  refine List.ext_getElem?_iff.mpr fun i => ?_
  by_cases hi : i < images.length
  · have hu : images[i]? = some images[i] := List.getElem?_eq_getElem hi
    rw [runFetches, runFetches_slot images fetch order _ i images[i]
      (hall i hi) hu (by simp)]
    simp [hi]
  · have h1 : (runFetches images fetch order)[i]? = none := by
      refine List.getElem?_eq_none ?_
      rw [runFetches, foldl_fetchStep_length]
      simpa using hi
    have h2 : (images.map fetch)[i]? = none := by
      refine List.getElem?_eq_none ?_
      simpa using hi
    rw [h1, h2]

theorem writeImages_go (bufs : List (Option Bytes)) :
    ∀ acc : Bytes,
      bufs.foldl (fun acc b => match b with | none => acc | some bb => acc ++ bb)
          acc =
        acc ++ (bufs.filterMap id).flatten := by
  induction bufs with
  | nil => intro acc; simp
  | cons b tl ih =>
      intro acc
      cases b with
      | none => rw [List.foldl_cons]; simpa using ih acc
      | some bb =>
          rw [List.foldl_cons]
          simpa [List.append_assoc] using ih (acc ++ bb)

/-- The image-writer goroutine writes exactly the concatenation, in index
order, of the buffers that are present, skipping `nil` buffers. -/
theorem writeImages_eq (bufs : List (Option Bytes)) :
    writeImages bufs = (bufs.filterMap id).flatten := by
  simpa using writeImages_go bufs []

/-- C5: for every image url sequence, after the fetch barrier the buffer at
index `i` is the download result of `images[i]` for every `i`, regardless
of the completion order of the concurrent download tasks (any order in
which every task completes); and the compositor writes the buffers to the
image pipe in index order, skipping absent buffers rather than aborting. -/
theorem C5_order_preservation (images : List String)
    (fetch : String → Option Bytes) (order : List Nat)
    (hall : ∀ i, i < images.length → i ∈ order) :
    runFetches images fetch order = images.map fetch ∧
    (∀ (i : Nat) (hi : i < images.length),
        (runFetches images fetch order)[i]? =
          some (fetch (images.get ⟨i, hi⟩))) ∧
    (∀ bufs : List (Option Bytes),
        writeImages bufs = (bufs.filterMap id).flatten) := by
  refine ⟨runFetches_eq images fetch order hall, fun i hi => ?_,
    fun bufs => writeImages_eq bufs⟩
  rw [runFetches_eq images fetch order hall]
  simp [hi]

/-- C5 witness: three images with the middle download failing and the
completion order scrambled to `[2, 0, 1]`: the barrier result is still the
per-index download map, and the writer emits the two present buffers in
index order. -/
theorem C5_order_preservation_witness :
    runFetches ["a", "b", "c"]
        (fun u => if u = "b" then none else some [1]) [2, 0, 1] =
      ["a", "b", "c"].map (fun u => if u = "b" then none else some [1]) ∧
    writeImages [some [1], none, some [2]] = [1, 2] :=
  ⟨(C5_order_preservation ["a", "b", "c"]
      (fun u => if u = "b" then none else some [1]) [2, 0, 1]
      (by decide)).1,
   ((C5_order_preservation ["a", "b", "c"]
      (fun u => if u = "b" then none else some [1]) [2, 0, 1]
      (by decide)).2.2 [some [1], none, some [2]]).trans (by decide)⟩

/-! ## Photo batching (C6) -/

theorem sendPhotoGroups_eq (urls : List String) (caption : String) :
    sendPhotoGroups urls caption =
      if urls = [] then []
      else
        buildGroup (urls.take groupSize) caption ::
          sendPhotoGroups (urls.drop groupSize) caption := by
  rw [sendPhotoGroups]
  by_cases h : urls = [] <;> simp [h]

theorem buildGroupFrom_map_media (chunk : List String) :
    ∀ (idx : Nat) (caption : String),
      (buildGroupFrom idx chunk caption).map mediaItem.media = chunk := by
  induction chunk with
  | nil => intro idx caption; rfl
  | cons u rest ih => intro idx caption; simp [buildGroupFrom, ih]

theorem buildGroupFrom_length (chunk : List String) :
    ∀ (idx : Nat) (caption : String),
      (buildGroupFrom idx chunk caption).length = chunk.length := by
  induction chunk with
  | nil => intro idx caption; rfl
  | cons u rest ih => intro idx caption; simp [buildGroupFrom, ih]

theorem buildGroupFrom_caption_empty (chunk : List String) :
    ∀ (idx : Nat) (caption : String), 0 < idx →
      ∀ it ∈ buildGroupFrom idx chunk caption, it.caption = "" := by
  induction chunk with
  | nil => intro idx caption _ it hit; simp [buildGroupFrom] at hit
  | cons u rest ih =>
      intro idx caption hidx it hit
      simp only [buildGroupFrom] at hit
      rcases List.mem_cons.mp hit with h | h
      · have hidx0 : idx ≠ 0 := Nat.pos_iff_ne_zero.mp hidx
        subst h
        simp [hidx0]
      · exact ih (idx + 1) caption (by omega) it h

theorem buildGroup_cons_head (u : String) (rest : List String)
    (caption : String) (hc : caption ≠ "") :
    buildGroup (u :: rest) caption =
      { media := u, caption := caption } :: buildGroupFrom 1 rest caption := by
  simp [buildGroup, buildGroupFrom, hc]

theorem sendPhotoGroups_spec_aux (n : Nat) :
    ∀ urls : List String, urls.length ≤ n →
      ∀ caption : String, caption ≠ "" →
        (((sendPhotoGroups urls caption).map
            (fun g => g.map mediaItem.media)).flatten = urls) ∧
        (∀ g ∈ sendPhotoGroups urls caption, 0 < g.length ∧ g.length ≤ 10) ∧
        (∀ (i : Nat) (g : List mediaItem),
            i + 1 < (sendPhotoGroups urls caption).length →
            (sendPhotoGroups urls caption)[i]? = some g → g.length = 10) ∧
        (∀ g ∈ sendPhotoGroups urls caption,
            (∀ h0, g.head? = some h0 → h0.caption = caption) ∧
            (∀ it ∈ g.tail, it.caption = "")) := by
  induction n with
  | zero =>
      intro urls hlen caption hc
      have hnil : urls = [] := List.length_eq_zero.mp (by omega)
      subst hnil
      rw [sendPhotoGroups_eq]
      simp
  | succ n ih =>
      intro urls hlen caption hc
      by_cases hnil : urls = []
      · subst hnil
        rw [sendPhotoGroups_eq]
        simp
      · rw [sendPhotoGroups_eq, if_neg hnil]
        have hlen1 : 0 < urls.length := List.length_pos.mpr hnil
        have hdrop : (urls.drop groupSize).length ≤ n := by
          simp only [List.length_drop, groupSize]
          omega
        obtain ⟨ih1, ih2, ih3, ih4⟩ := ih (urls.drop groupSize) hdrop caption hc
        have hglen : (buildGroup (urls.take groupSize) caption).length =
            min groupSize urls.length := by
          rw [buildGroup, buildGroupFrom_length, List.length_take]
        refine ⟨?_, ?_, ?_, ?_⟩
        · rw [List.map_cons, List.flatten_cons, buildGroup,
            buildGroupFrom_map_media, ih1, List.take_append_drop]
        · intro g hg
          rcases List.mem_cons.mp hg with h | h
          · subst h
            rw [hglen]
            simp only [groupSize]
            omega
          · exact ih2 g h
        · intro i g hi hg
          match i with
          | 0 =>
              rw [List.getElem?_cons_zero] at hg
              have hx : g = buildGroup (urls.take groupSize) caption :=
                (Option.some.inj hg).symm
              subst hx
              have hr : 0 <
                  (sendPhotoGroups (urls.drop groupSize) caption).length := by
                simp only [List.length_cons] at hi
                omega
              have hd : ¬ urls.drop groupSize = [] := by
                intro hdn
                rw [hdn, sendPhotoGroups_eq] at hr
                simp at hr
              have hgt : groupSize < urls.length := by
                by_contra hle
                exact hd (List.drop_eq_nil_iff.mpr (by omega))
              rw [hglen]
              simp only [groupSize] at hgt ⊢
              omega
          | j + 1 =>
              rw [List.getElem?_cons_succ] at hg
              refine ih3 j g ?_ hg
              simp only [List.length_cons] at hi
              omega
        · intro g hg
          rcases List.mem_cons.mp hg with h | h
          · subst h
            obtain ⟨u, tl, rfl⟩ : ∃ u tl, urls = u :: tl := by
              cases urls with
              | nil => exact absurd rfl hnil
              | cons a b => exact ⟨a, b, rfl⟩
            have htake : (u :: tl).take groupSize = u :: tl.take 9 := by
              simp only [groupSize]
              rw [List.take_succ_cons]
            rw [htake, buildGroup_cons_head u (tl.take 9) caption hc]
            constructor
            · intro h0 hh0
              rw [List.head?_cons] at hh0
              have := Option.some.inj hh0
              rw [← this]
            · intro it hit
              rw [List.tail_cons] at hit
              exact buildGroupFrom_caption_empty (tl.take 9) 1 caption
                (by omega) it hit
          · exact ih4 g h

/-- C6: `sendPhotoGroups` splits its url sequence into consecutive batches
(their media, concatenated in order, give back the url list), every batch
is nonempty with at most 10 items, every batch except the final one has
exactly 10 items (so 23 urls give batches of sizes 10, 10, 3), and the
caption is attached exactly to the first item of each batch: the head of
every batch carries the caption and every later item of a batch carries
none. -/
theorem C6_batch_captioning (urls : List String) (caption : String)
    (hc : caption ≠ "") :
    (((sendPhotoGroups urls caption).map
        (fun g => g.map mediaItem.media)).flatten = urls) ∧
    (∀ g ∈ sendPhotoGroups urls caption, 0 < g.length ∧ g.length ≤ 10) ∧
    (∀ (i : Nat) (g : List mediaItem),
        i + 1 < (sendPhotoGroups urls caption).length →
        (sendPhotoGroups urls caption)[i]? = some g → g.length = 10) ∧
    (∀ g ∈ sendPhotoGroups urls caption,
        (∀ h0, g.head? = some h0 → h0.caption = caption) ∧
        (∀ it ∈ g.tail, it.caption = "")) :=
  sendPhotoGroups_spec_aux urls.length urls le_rfl caption hc

/-- C6 witness: the batches of 23 identical urls concatenate back to the
23 urls (instantiating the first conjunct at a concrete 23-element list
with caption `"c"`). -/
theorem C6_batch_captioning_witness :
    (((sendPhotoGroups (List.replicate 23 "u") "c").map
        (fun g => g.map mediaItem.media)).flatten = List.replicate 23 "u") :=
  (C6_batch_captioning (List.replicate 23 "u") "c" (by decide)).1

/-! ## Compositor pipe discipline (C9) -/

theorem interleave_filter_left (p : Ev → Bool) :
    ∀ {xs ys zs : List Ev}, Interleave xs ys zs →
      (∀ e ∈ xs, p e = true) → (∀ e ∈ ys, p e = false) →
      zs.filter p = xs := by
  intro xs ys zs h
  induction h with
  | nil => intro _ _; rfl
  | left h ih =>
      intro hx hy
      have hpx := hx _ (List.mem_cons_self _ _)
      rw [List.filter_cons, if_pos hpx,
        ih (fun e he => hx e (List.mem_cons_of_mem _ he)) hy]
  | right h ih =>
      intro hx hy
      have hpy := hy _ (List.mem_cons_self _ _)
      rw [List.filter_cons, if_neg (by simp [hpy])]
      exact ih hx (fun e he => hy e (List.mem_cons_of_mem _ he))

theorem interleave_filter_right (p : Ev → Bool) :
    ∀ {xs ys zs : List Ev}, Interleave xs ys zs →
      (∀ e ∈ xs, p e = false) → (∀ e ∈ ys, p e = true) →
      zs.filter p = ys := by
  intro xs ys zs h
  induction h with
  | nil => intro _ _; rfl
  | left h ih =>
      intro hx hy
      have hpx := hx _ (List.mem_cons_self _ _)
      rw [List.filter_cons, if_neg (by simp [hpx])]
      exact ih (fun e he => hx e (List.mem_cons_of_mem _ he)) hy
  | right h ih =>
      intro hx hy
      have hpy := hy _ (List.mem_cons_self _ _)
      rw [List.filter_cons, if_pos hpy,
        ih hx (fun e he => hy e (List.mem_cons_of_mem _ he))]

theorem imgWriterEvents_all_img (bufs : List (Option Bytes)) :
    ∀ e ∈ imgWriterEvents bufs, isImgEv e = true := by
  intro e he
  rcases List.mem_append.mp he with h | h
  · obtain ⟨b, _, rfl⟩ := List.mem_map.mp h
    rfl
  · rw [List.mem_singleton.mp h]
    rfl

theorem imgWriterEvents_none_aud (bufs : List (Option Bytes)) :
    ∀ e ∈ imgWriterEvents bufs, isAudEv e = false := by
  intro e he
  rcases List.mem_append.mp he with h | h
  · obtain ⟨b, _, rfl⟩ := List.mem_map.mp h
    rfl
  · rw [List.mem_singleton.mp h]
    rfl

theorem audWriterEvents_all_aud (audBuf : Bytes) :
    ∀ e ∈ audWriterEvents audBuf, isAudEv e = true := by
  intro e he
  rcases List.mem_cons.mp he with rfl | h
  · rfl
  · rw [List.mem_singleton.mp h]
    rfl

theorem audWriterEvents_none_img (audBuf : Bytes) :
    ∀ e ∈ audWriterEvents audBuf, isImgEv e = false := by
  intro e he
  rcases List.mem_cons.mp he with rfl | h
  · rfl
  · rw [List.mem_singleton.mp h]
    rfl

/-- C9: in every execution of the composition phase, the external encoder
process is started before either writer routine performs any event (the
trace begins with `startEncoder`, and the writer goroutines only exist
after it), and the projection of the trace onto each writer is exactly
that writer's program: its writes in order followed by the close of its
pipe's write end.  In particular each writer closes its write end on every
execution path, and the close comes after all of that writer's writes —
pipe closure being the end-of-stream signal the encoder relies on. -/
theorem C9_pipe_discipline (bufs : List (Option Bytes)) (audBuf : Bytes)
    (tr : List Ev) (h : compositorTrace bufs audBuf tr) :
    tr.head? = some Ev.startEncoder ∧
    tr.filter isImgEv =
      (bufs.filterMap id).map Ev.writeImg ++ [Ev.closeImg] ∧
    tr.filter isAudEv = [Ev.writeAud audBuf, Ev.closeAud] := by
  obtain ⟨t, hint, rfl⟩ := h
  refine ⟨rfl, ?_, ?_⟩
  · rw [List.filter_cons, if_neg (by simp [isImgEv])]
    exact interleave_filter_left isImgEv hint
      (imgWriterEvents_all_img bufs) (audWriterEvents_none_img audBuf)
  · rw [List.filter_cons, if_neg (by simp [isAudEv])]
    exact interleave_filter_right isAudEv hint
      (imgWriterEvents_none_aud bufs) (audWriterEvents_all_aud audBuf)

/-- C9 witness: a concrete interleaved execution with one present and one
absent image buffer, in which the audio write overtakes the image close:
the trace still starts with the encoder start and projects onto each
writer's full program. -/
theorem C9_pipe_discipline_witness :
    ([Ev.startEncoder, Ev.writeImg [1], Ev.writeAud [2], Ev.closeImg,
        Ev.closeAud].head? = some Ev.startEncoder) ∧
    ([Ev.startEncoder, Ev.writeImg [1], Ev.writeAud [2], Ev.closeImg,
        Ev.closeAud].filter isImgEv =
      (([some [1], none] : List (Option Bytes)).filterMap id).map
          Ev.writeImg ++ [Ev.closeImg]) ∧
    ([Ev.startEncoder, Ev.writeImg [1], Ev.writeAud [2], Ev.closeImg,
        Ev.closeAud].filter isAudEv = [Ev.writeAud [2], Ev.closeAud]) :=
  C9_pipe_discipline [some [1], none] [2]
    [Ev.startEncoder, Ev.writeImg [1], Ev.writeAud [2], Ev.closeImg,
      Ev.closeAud]
    ⟨[Ev.writeImg [1], Ev.writeAud [2], Ev.closeImg, Ev.closeAud],
      by
        show Interleave [Ev.writeImg [1], Ev.closeImg]
          [Ev.writeAud [2], Ev.closeAud]
          [Ev.writeImg [1], Ev.writeAud [2], Ev.closeImg, Ev.closeAud]
        exact .left (.right (.left (.right .nil))),
      rfl⟩

/-! ## Start-payload routing (C10) -/

theorem fieldsCore_no_space (l : List Char) :
    ∀ acc : List Char, (∀ c ∈ acc, isSpace c = false) →
      ∀ w ∈ fieldsCore acc l, ∀ c ∈ w, isSpace c = false := by
  induction l with
  | nil =>
      intro acc hacc w hw c hc
      simp only [fieldsCore] at hw
      by_cases ha : acc = []
      · rw [if_pos ha] at hw
        simp at hw
      · rw [if_neg ha] at hw
        rw [List.mem_singleton.mp hw] at hc
        exact hacc c (List.mem_reverse.mp hc)
  | cons ch rest ih =>
      intro acc hacc w hw c hc
      simp only [fieldsCore] at hw
      cases hs : isSpace ch with
      | true =>
          rw [if_pos (by simp [hs])] at hw
          by_cases ha : acc = []
          · rw [if_pos ha] at hw
            exact ih [] (by simp) w hw c hc
          · rw [if_neg ha] at hw
            rcases List.mem_cons.mp hw with rfl | h
            · exact hacc c (List.mem_reverse.mp hc)
            · exact ih [] (by simp) w h c hc
      | false =>
          rw [if_neg (by simp [hs])] at hw
          refine ih (ch :: acc) ?_ w hw c hc
          intro c2 hc2
          rcases List.mem_cons.mp hc2 with rfl | h2
          · exact hs
          · exact hacc c2 h2

theorem fields_no_space (text : String) :
    ∀ w ∈ fields text, ∀ c ∈ w.data, isSpace c = false := by
  intro w hw c hc
  obtain ⟨cs, hcs, rfl⟩ := List.mem_map.mp hw
  exact fieldsCore_no_space text.data [] (by simp) cs hcs c hc

theorem dropWhile_eq_self_of_all_false (p : Char → Bool) :
    ∀ l : List Char, (∀ c ∈ l, p c = false) → l.dropWhile p = l := by
  intro l h
  cases l with
  | nil => rfl
  | cons c rest =>
      rw [List.dropWhile_cons, if_neg (by simp [h c (List.mem_cons_self c rest)])]

theorem trimSpace_of_no_space (s : String)
    (h : ∀ c ∈ s.data, isSpace c = false) : trimSpace s = s := by
  unfold trimSpace
  rw [dropWhile_eq_self_of_all_false isSpace s.data h,
    dropWhile_eq_self_of_all_false isSpace s.data.reverse
      (fun c hc => h c (List.mem_reverse.mp hc)),
    List.reverse_reverse]

/-- C10: a message is treated as a deferred-handoff callback exactly when
its first whitespace-separated field is `"/start"` and a second field
exists beginning with the `"tt_"` deep-link marker (first conjunct: every
other message, including bare `"/start"` or a payload without the marker,
falls through to ordinary link handling as `notHandled`); when it is such
a callback, the cache is queried with the marker stripped from the second
field — matching the minted deep-link payload — and a found entry leads to
delivery of the cached link while a missing or expired entry produces the
user-visible expiry message (second and third conjuncts). -/
theorem C10_start_callback (text : String) (cache : CacheMap) (now : Nat) :
    ((handleStartPayload text cache now).1 = StartAction.notHandled ↔
      ¬ ∃ p1 rest, fields text = "/start" :: p1 :: rest ∧
          hasPref p1.data startTokenPref.data = true) ∧
    (∀ p1 rest link c2, fields text = "/start" :: p1 :: rest →
        hasPref p1.data startTokenPref.data = true →
        linkCache.get cache
            (String.mk (trimPref p1.data startTokenPref.data)) now =
          ((link, true), c2) →
        handleStartPayload text cache now = (StartAction.sendLink link, c2)) ∧
    (∀ p1 rest s c2, fields text = "/start" :: p1 :: rest →
        hasPref p1.data startTokenPref.data = true →
        linkCache.get cache
            (String.mk (trimPref p1.data startTokenPref.data)) now =
          ((s, false), c2) →
        handleStartPayload text cache now =
          (StartAction.expiredMessage, c2)) := by
  cases hf : fields text with
  | nil =>
      refine ⟨iff_of_true (by simp [handleStartPayload, hf]) ?_, ?_, ?_⟩
      · rintro ⟨p1, rest, heq, -⟩
        exact List.noConfusion heq
      · intro p1 rest link c2 heq
        exact List.noConfusion heq
      · intro p1 rest s c2 heq
        exact List.noConfusion heq
  | cons p0 rest0 =>
      by_cases hp0 : p0 = "/start"
      · subst hp0
        cases rest0 with
        | nil =>
            refine ⟨iff_of_true (by simp [handleStartPayload, hf]) ?_, ?_, ?_⟩
            · rintro ⟨p1, rest, heq, -⟩
              exact List.noConfusion (List.cons.inj heq).2
            · intro p1 rest link c2 heq
              exact List.noConfusion (List.cons.inj heq).2
            · intro p1 rest s c2 heq
              exact List.noConfusion (List.cons.inj heq).2
        | cons p1 rest =>
            have hp1mem : p1 ∈ fields text := by
              rw [hf]
              exact List.mem_cons_of_mem _ (List.mem_cons_self _ _)
            have htrim : trimSpace p1 = p1 :=
              trimSpace_of_no_space p1 (fields_no_space text p1 hp1mem)
            have hinj : ∀ (q1 : String) (qrest : List String),
                "/start" :: p1 :: rest = "/start" :: q1 :: qrest →
                  q1 = p1 := by
              intro q1 qrest heq
              exact ((List.cons.inj (List.cons.inj heq).2).1).symm
            by_cases hpr : hasPref p1.data startTokenPref.data = true
            · rcases hget : linkCache.get cache
                  (String.mk (trimPref p1.data startTokenPref.data)) now with
                ⟨⟨link, b⟩, c2⟩
              cases b with
              | true =>
                  have hh : handleStartPayload text cache now =
                      (StartAction.sendLink link, c2) := by
                    simp [handleStartPayload, hf, htrim, hpr, hget]
                  refine ⟨iff_of_false (by simp [hh])
                    (fun hne => hne ⟨p1, rest, rfl, hpr⟩), ?_, ?_⟩
                  · intro q1 qrest link2 c3 heq hq hg
                    rw [hinj q1 qrest heq] at hg
                    rw [hget] at hg
                    have h1 := congrArg (fun x => x.1.1) hg
                    have h2 := congrArg (fun x => x.2) hg
                    simp only at h1 h2
                    rw [hh, h1, h2]
                  · intro q1 qrest s c3 heq hq hg
                    rw [hinj q1 qrest heq] at hg
                    rw [hget] at hg
                    have h3 := congrArg (fun x => x.1.2) hg
                    simp at h3
              | false =>
                  have hh : handleStartPayload text cache now =
                      (StartAction.expiredMessage, c2) := by
                    simp [handleStartPayload, hf, htrim, hpr, hget]
                  refine ⟨iff_of_false (by simp [hh])
                    (fun hne => hne ⟨p1, rest, rfl, hpr⟩), ?_, ?_⟩
                  · intro q1 qrest link2 c3 heq hq hg
                    rw [hinj q1 qrest heq] at hg
                    rw [hget] at hg
                    have h3 := congrArg (fun x => x.1.2) hg
                    simp at h3
                  · intro q1 qrest s c3 heq hq hg
                    rw [hinj q1 qrest heq] at hg
                    rw [hget] at hg
                    have h2 := congrArg (fun x => x.2) hg
                    simp only at h2
                    rw [hh, h2]
            · have hh : (handleStartPayload text cache now).1 =
                  StartAction.notHandled := by
                simp [handleStartPayload, hf, htrim, hpr]
              refine ⟨iff_of_true hh ?_, ?_, ?_⟩
              · rintro ⟨q1, qrest, heq, hq⟩
                rw [hinj q1 qrest heq] at hq
                exact hpr hq
              · intro q1 qrest link c2 heq hq
                rw [hinj q1 qrest heq] at hq
                exact absurd hq hpr
              · intro q1 qrest s c2 heq hq
                rw [hinj q1 qrest heq] at hq
                exact absurd hq hpr
      · refine ⟨iff_of_true (by simp [handleStartPayload, hf, hp0]) ?_, ?_, ?_⟩
        · rintro ⟨p1, rest, heq, -⟩
          exact hp0 (List.cons.inj heq).1
        · intro p1 rest link c2 heq
          exact absurd (List.cons.inj heq).1 hp0
        · intro p1 rest s c2 heq
          exact absurd (List.cons.inj heq).1 hp0

/-- C10 witness: the concrete message `"/start tt_abc"` against a cache
holding token `"abc"` (expiring at time 5, queried at time 0) resolves
through the deferred-handoff path to the cached link `"u"`. -/
theorem C10_start_callback_witness :
    handleStartPayload "/start tt_abc"
        [("abc", { url := "u", expires := 5 })] 0 =
      (StartAction.sendLink "u", [("abc", { url := "u", expires := 5 })]) :=
  (C10_start_callback "/start tt_abc"
      [("abc", { url := "u", expires := 5 })] 0).2.1
    "tt_abc" [] "u" [("abc", { url := "u", expires := 5 })]
    (by decide) (by decide) (by decide)
